import Mathlib

/-!
# Verification of the `bom_fold` level-ordered folding and materialization core

Shallow embedding of `src/bom_fold/src/transform/ordered_level_key.rs`,
`src/bom_fold/src/transform/data.rs` and `src/bom_fold/src/materialize/mod.rs`.

Modelling conventions:
* `f64` payloads are modelled as `Option ℚ`, with `none` standing for `NaN`
  (the single value whose comparisons via `partial_cmp` yield `None` and whose
  `==` is irreflexive). Finite doubles are modelled as rationals; ordering and
  equality of finite doubles are faithfully represented.
* Rust `Result<T, Error>` becomes `Except Error T`; a Rust panic (out-of-bounds
  `Vec` indexing) is modelled by the distinguished constructor
  `Error.runtimePanic`, kept separate from `Error.invalidArgument`.
* The `Vec` used as a working stack (push/pop at the end) is modelled as a
  `List` with its head as the stack top; the `top_level_nodes` output `Vec`
  is modelled as a list appended on the right, preserving order.
-/

namespace BomFold

/-- Model of the `f64` payload of `Value::Number`: `none` is `NaN`. -/
abbrev F64 := Option ℚ

/-- `Value` from `transform/data.rs`: tagged union of `Text(String)` and
`Number(f64)`. -/
inductive Value where
  | Text : String → Value
  | Number : F64 → Value
deriving DecidableEq, Repr

/-- Three-way comparison of naturals. -/
def natCmp (a b : Nat) : Ordering :=
  if a < b then .lt else if a = b then .eq else .gt

/-- Lexicographic comparison of character lists by code point, modelling
Rust's `str` ordering (UTF-8 byte order coincides with code-point order). -/
def charListCmp : List Char → List Char → Ordering
  | [], [] => .eq
  | [], _ :: _ => .lt
  | _ :: _, [] => .gt
  | c :: cs, d :: ds =>
    match natCmp c.toNat d.toNat with
    | .eq => charListCmp cs ds
    | o => o

/-- Rust's `str` comparison (lexicographic). -/
def strCmp (a b : String) : Ordering := charListCmp a.data b.data

/-- Comparison of finite doubles, modelled on rationals via
cross-multiplication (denominators are positive). -/
def ratCmp (a b : ℚ) : Ordering :=
  if a.num * b.den < b.num * a.den then .lt
  else if a.num * b.den = b.num * a.den then .eq
  else .gt

/-- Model of the `#[derive(PartialOrd)]` instance on `Value`: variants are
ordered by declaration order (`Text(_) < Number(_)`); two `Text`s compare
lexicographically; two `Number`s compare as `f64` (`none` when either is
`NaN`). -/
def valuePartialCmp : Value → Value → Option Ordering
  | .Text a, .Text b => some (strCmp a b)
  | .Text _, .Number _ => some .lt
  | .Number _, .Text _ => some .gt
  | .Number a, .Number b =>
    match a, b with
    | some x, some y => some (ratCmp x y)
    | _, _ => none

/-- Model of the `#[derive(PartialEq)]` instance on `Value`: different
variants are unequal, `NaN` is unequal to everything (itself included). -/
def valueBeq : Value → Value → Bool
  | .Text a, .Text b => a == b
  | .Number (some x), .Number (some y) => x == y
  | _, _ => false

/-- Errors the embedded code can signal. `invalidArgument` models
`Error::invalid_argument` from the `error` crate; `runtimePanic` models a
Rust panic (out-of-bounds `Vec` indexing), which is *not* an `Error` value
in the source (messages are paraphrased). -/
inductive Error where
  | invalidArgument : String → Error
  | runtimePanic : String → Error
deriving DecidableEq, Repr

/-- `FlatData` from `transform/data.rs`. -/
structure FlatData where
  keys : List String
  records : List (List Value)
deriving Repr

/-- `Node` from `transform/data.rs`: a view of one record, plus children. -/
inductive Node where
  | mk : List Value → List Node → Node
deriving Repr

/-- The `attributes` field of a `Node`. -/
def Node.attributes : Node → List Value
  | .mk a _ => a

/-- The `children` field of a `Node`. -/
def Node.children : Node → List Node
  | .mk _ c => c

/-- `FoldedData` from `transform/data.rs` (`Default` gives empty lists). -/
structure FoldedData where
  attribute_keys : List String := []
  top_level_nodes : List Node := []
deriving Repr

/-- `LevelNode` from `transform/ordered_level_key.rs`. -/
structure LevelNode where
  level : Value
  node : Node
deriving Repr

/-- `parent.node.children.push(popped.node)` from `finalize_working_node`. -/
def pushChild (parent : LevelNode) (child : Node) : LevelNode :=
  { parent with node := .mk parent.node.attributes (parent.node.children ++ [child]) }

/-- The inner loop of `unwind_working_stack` after the first pop, with the
just-popped node threaded as `pending` (it must be attached to the new stack
top, or to `top_level_nodes` when the stack has emptied — this is exactly what
`finalize_working_node` does before the loop re-compares the new top). -/
def unwindAux (cur : Value) : List LevelNode → Node → List Node →
    List LevelNode × List Node
  | [], pending, tops => ([], tops ++ [pending])
  | parent :: rest, pending, tops =>
    let parent' := pushChild parent pending
    match valuePartialCmp parent'.level cur with
    | some .gt | some .eq => unwindAux cur rest parent'.node tops
    | _ => (parent' :: rest, tops)

/-- `unwind_working_stack` from `transform/ordered_level_key.rs`: pop the
stack while the top's level compares `Greater` or `Equal` to the current
record's level; each popped node becomes the last child of the new top (or a
top-level node when the stack empties). -/
def unwindWorkingStack (stack : List LevelNode) (tops : List Node)
    (cur : Value) : List LevelNode × List Node :=
  match stack with
  | [] => ([], tops)
  | top :: rest =>
    match valuePartialCmp top.level cur with
    | some .gt | some .eq => unwindAux cur rest top.node tops
    | _ => (stack, tops)

/-- `finalize_working_node` from `transform/ordered_level_key.rs`, as a
one-step state transformer (used to state the unwind loop's step law). -/
def finalizeWorkingNode : List LevelNode × List Node → List LevelNode × List Node
  | ([], tops) => ([], tops)
  | (top :: rest, tops) =>
    match rest with
    | parent :: rest2 => (pushChild parent top.node :: rest2, tops)
    | [] => ([], tops ++ [top.node])

/-- Inner loop of `unwind_working_stack_unconditionally`, threading the
just-popped node as in `unwindAux`. -/
def unwindAllAux : List LevelNode → Node → List Node → List Node
  | [], pending, tops => tops ++ [pending]
  | parent :: rest, pending, tops => unwindAllAux rest (pushChild parent pending).node tops

/-- `unwind_working_stack_unconditionally` from
`transform/ordered_level_key.rs`. -/
def unwindWorkingStackUnconditionally (stack : List LevelNode)
    (tops : List Node) : List Node :=
  match stack with
  | [] => tops
  | top :: rest => unwindAllAux rest top.node tops

/-- The per-record loop body of `fold`: `record[level_key_index]` (a panic
when the record is too short), conditional unwind, then push. -/
def foldRecords (idx : Nat) : List (List Value) → List LevelNode → List Node →
    Except Error (List LevelNode × List Node)
  | [], stack, tops => .ok (stack, tops)
  | record :: rest, stack, tops =>
    match record.get? idx with
    | none => .error (.runtimePanic "index out of bounds")
    | some cur =>
      let st := if stack.isEmpty then (stack, tops) else unwindWorkingStack stack tops cur
      foldRecords idx rest ({ level := cur, node := .mk record [] } :: st.1) st.2

/-- `fold` from `transform/ordered_level_key.rs`. -/
def fold (flat_data : FlatData) (level_key : String) : Except Error FoldedData :=
  if flat_data.records.isEmpty || flat_data.keys.isEmpty then .ok {}
  else
    match flat_data.keys.findIdx? (fun item => item == level_key) with
    | none => .error (.invalidArgument "level key not found in the flat data keys")
    | some level_key_index =>
      match foldRecords level_key_index flat_data.records [] [] with
      | .error e => .error e
      | .ok (stack, tops) =>
        .ok { attribute_keys := flat_data.keys
              top_level_nodes := unwindWorkingStackUnconditionally stack tops }

mutual

/-- Depth-first pre-order listing of the attribute rows of a node. -/
def Node.preorder : Node → List (List Value)
  | .mk attrs children => attrs :: preorderList children

/-- Depth-first pre-order listing of the attribute rows of a list of nodes. -/
def preorderList : List Node → List (List Value)
  | [] => []
  | n :: ns => n.preorder ++ preorderList ns

end

/-! ## Materializer (`materialize/mod.rs`) -/

/-- `ItemSyncFormatRules` from `transform/rules.rs`. -/
structure ItemSyncFormatRules where
  id_key : String
  name_key : Option String
  quantity_key : Option String

/-- `BomRecord` from `materialize/mod.rs` ("BOMs" sheet row). -/
structure BomRecord where
  id : Value
  name : Value
deriving DecidableEq, Repr

/-- `BomEntryRecord` from `materialize/mod.rs` ("BOM entries" sheet row). -/
structure BomEntryRecord where
  bom_id : Value
  entry_type : String
  entry_id : Value
  quantity : F64
deriving DecidableEq, Repr

/-- `ItemSyncFormat` from `materialize/mod.rs`. -/
structure ItemSyncFormat where
  boms : List BomRecord
  bom_entries : List BomEntryRecord
deriving DecidableEq, Repr

/-- `AttributeIndices` from `materialize/mod.rs`. -/
structure AttributeIndices where
  id : Nat
  name : Nat
  quantity : Option Nat
deriving DecidableEq, Repr

/-- `AttributeIndices::new` from `materialize/mod.rs`: id is mandatory, the
name index falls back to the id index, the quantity index is optional. -/
def AttributeIndices.new (folded_data : FoldedData) (rules : ItemSyncFormatRules) :
    Except Error AttributeIndices :=
  match folded_data.attribute_keys.findIdx? (fun a => a == rules.id_key) with
  | none => .error (.invalidArgument "id_key not found in folded data")
  | some id_index =>
    .ok { id := id_index
          name := (rules.name_key.bind fun name_key =>
            folded_data.attribute_keys.findIdx? (fun a => a == name_key)).getD id_index
          quantity := rules.quantity_key.bind fun key =>
            folded_data.attribute_keys.findIdx? (fun a => a == key) }

mutual

/-- `recursively_make_records` from `materialize/mod.rs`, returning the
lists this subtree appends to the shared `boms`/`bom_entries` vectors
(appending per-subtree results in DFS order is equivalent to pushing into
shared vectors during the DFS). -/
def recursivelyMakeRecords (indices : AttributeIndices) :
    Node → Option Value → Except Error (List BomRecord × List BomEntryRecord)
  | .mk attrs children, parent_node_id =>
    let entry_type := if children.isEmpty then "part" else "sub-bom"
    match attrs.get? indices.id with
    | none => .error (.invalidArgument "Node is missing id")
    | some node_id =>
      let bom_entries : List BomEntryRecord :=
        match parent_node_id with
        | some pid =>
          [{ bom_id := pid, entry_type := entry_type, entry_id := node_id
             quantity := (indices.quantity.bind fun index =>
               match attrs.get? index with
               | some (.Number n) => some n
               | _ => none).getD (some 1) }]
        | none => []
      if children.isEmpty then .ok ([], bom_entries)
      else
        match attrs.get? indices.name with
        | none => .error (.invalidArgument "Unable to find name field in BOM node.")
        | some name =>
          match recursivelyMakeRecordsList indices children (some node_id) with
          | .error e => .error e
          | .ok (bs, es) => .ok ({ id := node_id, name := name } :: bs, bom_entries ++ es)

/-- The recursion of `recursively_make_records` over a child list (also
models the `for node in folded_data.top_level_nodes` loop of
`format_item_sync`, whose body is the same call with no parent). -/
def recursivelyMakeRecordsList (indices : AttributeIndices) :
    List Node → Option Value → Except Error (List BomRecord × List BomEntryRecord)
  | [], _ => .ok ([], [])
  | n :: ns, parent_node_id =>
    match recursivelyMakeRecords indices n parent_node_id with
    | .error e => .error e
    | .ok (b1, e1) =>
      match recursivelyMakeRecordsList indices ns parent_node_id with
      | .error e => .error e
      | .ok (b2, e2) => .ok (b1 ++ b2, e1 ++ e2)

end

/-- `partial_cmp(..).unwrap_or(Ordering::Equal)`: the total comparator the
materializer sorts with (incomparable pairs count as equal). -/
def valueCmpU (a b : Value) : Ordering :=
  (valuePartialCmp a b).getD .eq

/-- The comparator `format_item_sync` passes to `sort_unstable_by`:
`lhs.id.partial_cmp(rhs.id).unwrap_or(Ordering::Equal)`. -/
def bomCmp (lhs rhs : BomRecord) : Ordering :=
  valueCmpU lhs.id rhs.id

/-- "Sorts no later than": the non-strict order induced by `bomCmp`. -/
def bomLe (lhs rhs : BomRecord) : Prop :=
  bomCmp lhs rhs ≠ .gt

/-- Insertion step of the sort model. -/
def orderedInsertBom (x : BomRecord) : List BomRecord → List BomRecord
  | [] => [x]
  | y :: ys =>
    match bomCmp x y with
    | .gt => y :: orderedInsertBom x ys
    | _ => x :: y :: ys

/-- Model of `boms.sort_unstable_by(...)`: a deterministic comparison sort
driven by the same comparator. For a comparator that is a total order this
agrees with any correct sort up to tie order; for the all-ties comparisons
produced by `NaN` ids it keeps the input order. -/
def sortBoms : List BomRecord → List BomRecord
  | [] => []
  | x :: xs => orderedInsertBom x (sortBoms xs)

/-- Tail of `boms.dedup_by_key(|b| b.id)`: drop each element whose id equals
(by `Value`'s `PartialEq`) the id of the most recently retained element. -/
def dedupByIdAux (prev : BomRecord) : List BomRecord → List BomRecord
  | [] => []
  | x :: xs =>
    if valueBeq x.id prev.id then dedupByIdAux prev xs
    else x :: dedupByIdAux x xs

/-- Model of `boms.dedup_by_key(|b| b.id)`: remove consecutive elements with
equal ids, keeping the first of each run. -/
def dedupById : List BomRecord → List BomRecord
  | [] => []
  | x :: xs => x :: dedupByIdAux x xs

/-- `ItemSyncFormat::format_item_sync` from `materialize/mod.rs`. -/
def formatItemSync (folded_data : FoldedData) (rules : ItemSyncFormatRules) :
    Except Error ItemSyncFormat :=
  match AttributeIndices.new folded_data rules with
  | .error e => .error e
  | .ok indices =>
    match recursivelyMakeRecordsList indices folded_data.top_level_nodes none with
    | .error e => .error e
    | .ok (boms, bom_entries) =>
      .ok { boms := dedupById (sortBoms boms), bom_entries := bom_entries }

/-! ## Derived views of the forest used to state the theorems -/

mutual

/-- All nodes of a subtree in depth-first pre-order. -/
def allNodes : Node → List Node
  | .mk attrs children => .mk attrs children :: allNodesList children

/-- All nodes of a list of subtrees in depth-first pre-order. -/
def allNodesList : List Node → List Node
  | [] => []
  | n :: ns => allNodes n ++ allNodesList ns

end

/-- The id attribute of a node at the resolved id index (defaulting
arbitrarily out of bounds; every use is guarded by a successful run). -/
def idOf (indices : AttributeIndices) (n : Node) : Value :=
  (n.attributes.get? indices.id).getD (.Text "")

/-- The name attribute of a node at the resolved name index. -/
def nameOf (indices : AttributeIndices) (n : Node) : Value :=
  (n.attributes.get? indices.name).getD (.Text "")

/-- The quantity the materializer assigns to a node's entry: the `Number`
at the resolved quantity index when configured, present and numeric;
`1.0` otherwise. -/
def qtyOf (indices : AttributeIndices) (n : Node) : F64 :=
  (indices.quantity.bind fun index =>
    match n.attributes.get? index with
    | some (.Number q) => some q
    | _ => none).getD (some 1)

/-- The entry kind the materializer assigns to a node. -/
def entryTypeOf (n : Node) : String :=
  if n.children.isEmpty then "part" else "sub-bom"

/-- The single `BomEntryRecord` a parented node contributes. -/
def mkEntry (indices : AttributeIndices) (pid : Value) (n : Node) : BomEntryRecord :=
  { bom_id := pid, entry_type := entryTypeOf n, entry_id := idOf indices n
    quantity := qtyOf indices n }

/-- The single `BomRecord` an internal node contributes. -/
def mkHeader (indices : AttributeIndices) (n : Node) : BomRecord :=
  { id := idOf indices n, name := nameOf indices n }

mutual

/-- Every node of a subtree in pre-order, paired with the id of its parent
(`none` for the subtree root when materialized with no parent). -/
def entryPairs (indices : AttributeIndices) (p : Option Value) :
    Node → List (Option Value × Node)
  | .mk attrs children =>
    (p, .mk attrs children) ::
      entryPairsList indices (some (idOf indices (.mk attrs children))) children

/-- `entryPairs` over a list of subtrees sharing one parent id. -/
def entryPairsList (indices : AttributeIndices) (p : Option Value) :
    List Node → List (Option Value × Node)
  | [] => []
  | n :: ns => entryPairs indices p n ++ entryPairsList indices p ns

end

/-- `NaN` detector: the only `Value` whose comparisons are undefined and
whose equality is irreflexive. -/
def properValue : Value → Bool
  | .Number none => false
  | _ => true

/-- The records held by the working stack, bottom of the stack first, each
stack entry contributing the pre-order rows of its subtree. -/
def stackRecords : List LevelNode → List (List Value)
  | [] => []
  | s :: rest => stackRecords rest ++ s.node.preorder

/-! ## Concrete inputs used by the claim theorems -/

/-- The spec's worked example: level values `1, 1.1, 1.1, 1.2, 1.1` stored as
`Text`, exactly as in the repository's `single_root_multi_layer` test. -/
def exampleFlat : FlatData :=
  { keys := ["level", "foo"]
    records :=
      [[.Text "1", .Text "0"],
       [.Text "1.1", .Text "1"],
       [.Text "1.1", .Text "2"],
       [.Text "1.2", .Text "3"],
       [.Text "1.1", .Text "4"]] }

/-- The forest the code actually folds `exampleFlat` into (the shape asserted
by the repository's own `single_root_multi_layer` test). -/
def exampleForest : FoldedData :=
  { attribute_keys := ["level", "foo"]
    top_level_nodes :=
      [.mk [.Text "1", .Text "0"]
        [.mk [.Text "1.1", .Text "1"] [],
         .mk [.Text "1.1", .Text "2"] [.mk [.Text "1.2", .Text "3"] []],
         .mk [.Text "1.1", .Text "4"] []]] }

/-- A forest whose three assemblies carry the ids `1.0`, `NaN`, `1.0`. -/
def nanForest : FoldedData :=
  { attribute_keys := ["id"]
    top_level_nodes :=
      [.mk [.Number (some 1)] [.mk [.Number (some 1)] []],
       .mk [.Number none] [.mk [.Number none] []],
       .mk [.Number (some 1)] [.mk [.Number (some 1)] []]] }

/-- Two assemblies sharing the (proper) id `"a"`. -/
def dupForest : FoldedData :=
  { attribute_keys := ["id"]
    top_level_nodes :=
      [.mk [.Text "a"] [.mk [.Text "x"] []],
       .mk [.Text "a"] [.mk [.Text "y"] []]] }

/-- Materialization rules selecting column `id`, with no name or quantity key. -/
def idOnlyRules : ItemSyncFormatRules := ⟨"id", none, none⟩

/-- Rules whose `name_key` does not occur in the forest's attribute keys. -/
def nameMissingRules : ItemSyncFormatRules := ⟨"id", some "missing", none⟩

/-- One assembly with a numeric quantity column, whose child holds a
non-numeric value in that column. -/
def qtyForest : FoldedData :=
  { attribute_keys := ["id", "qty"]
    top_level_nodes :=
      [.mk [.Text "a", .Number (some 2)] [.mk [.Text "b", .Text "n"] []]] }

/-- Rules configuring the `qty` column as the quantity key. -/
def qtyRules : ItemSyncFormatRules := ⟨"id", none, some "qty"⟩

/-- The output `format_item_sync` produces for `dupForest` with
`idOnlyRules`. -/
def dupOut : ItemSyncFormat :=
  { boms := [{ id := .Text "a", name := .Text "a" }]
    bom_entries :=
      [{ bom_id := .Text "a", entry_type := "part",
         entry_id := .Text "x", quantity := some 1 },
       { bom_id := .Text "a", entry_type := "part",
         entry_id := .Text "y", quantity := some 1 }] }

/-- The output `format_item_sync` produces for `qtyForest` with
`qtyRules`. -/
def qtyOut : ItemSyncFormat :=
  { boms := [{ id := .Text "a", name := .Text "a" }]
    bom_entries :=
      [{ bom_id := .Text "a", entry_type := "part",
         entry_id := .Text "b", quantity := some 1 }] }

/-! ## Comparator lemmas -/

theorem char_toNat_injective {a b : Char} (h : a.toNat = b.toNat) : a = b :=
  Char.ext (UInt32.ext h)

theorem natCmp_eq_lt {a b : Nat} : natCmp a b = .lt ↔ a < b := by
  unfold natCmp
  split <;> rename_i h1
  · simpa using h1
  · split <;> simp <;> omega

theorem natCmp_eq_eq {a b : Nat} : natCmp a b = .eq ↔ a = b := by
  unfold natCmp
  split <;> rename_i h1
  · simp; omega
  · split <;> rename_i h2 <;> simp <;> omega

theorem natCmp_eq_gt {a b : Nat} : natCmp a b = .gt ↔ b < a := by
  unfold natCmp
  split <;> rename_i h1
  · simp; omega
  · split <;> rename_i h2 <;> simp <;> omega

theorem natCmp_swap (a b : Nat) : natCmp b a = (natCmp a b).swap := by
  cases hab : natCmp a b with
  | lt => exact natCmp_eq_gt.mpr (natCmp_eq_lt.mp hab)
  | eq => exact natCmp_eq_eq.mpr (natCmp_eq_eq.mp hab).symm
  | gt => exact natCmp_eq_lt.mpr (natCmp_eq_gt.mp hab)

theorem charListCmp_eq_eq : ∀ {a b : List Char}, charListCmp a b = .eq ↔ a = b
  | [], [] => by simp [charListCmp]
  | [], _ :: _ => by simp [charListCmp]
  | _ :: _, [] => by simp [charListCmp]
  | c :: cs, d :: ds => by
    simp only [charListCmp]
    cases h : natCmp c.toNat d.toNat with
    | lt =>
      simp only [List.cons.injEq]
      constructor
      · intro hh; cases hh
      · rintro ⟨rfl, -⟩
        have := natCmp_eq_lt.mp h
        omega
    | eq =>
      have hcd : c = d := char_toNat_injective (natCmp_eq_eq.mp h)
      subst hcd
      simpa using charListCmp_eq_eq (a := cs) (b := ds)
    | gt =>
      simp only [List.cons.injEq]
      constructor
      · intro hh; cases hh
      · rintro ⟨rfl, -⟩
        have := natCmp_eq_gt.mp h
        omega

theorem charListCmp_swap : ∀ (a b : List Char), charListCmp b a = (charListCmp a b).swap
  | [], [] => rfl
  | [], _ :: _ => rfl
  | _ :: _, [] => rfl
  | c :: cs, d :: ds => by
    simp only [charListCmp]
    rw [natCmp_swap c.toNat d.toNat]
    cases h : natCmp c.toNat d.toNat <;>
      simp [Ordering.swap, charListCmp_swap cs ds]

theorem charListCmp_ne_gt_trans :
    ∀ (a b c : List Char), charListCmp a b ≠ .gt → charListCmp b c ≠ .gt →
      charListCmp a c ≠ .gt
  | [], b, c, _, _ => by cases c <;> simp [charListCmp]
  | _ :: _, [], _, h1, _ => by simp [charListCmp] at h1
  | _ :: _, _ :: _, [], _, h2 => by simp [charListCmp] at h2
  | x :: xs, y :: ys, z :: zs, h1, h2 => by
    simp only [charListCmp] at h1 h2 ⊢
    cases hxy : natCmp x.toNat y.toNat with
    | gt => rw [hxy] at h1; exact absurd rfl h1
    | lt =>
      cases hyz : natCmp y.toNat z.toNat with
      | gt => rw [hyz] at h2; exact absurd rfl h2
      | lt =>
        have hxz : natCmp x.toNat z.toNat = .lt := by
          have := natCmp_eq_lt.mp hxy
          have := natCmp_eq_lt.mp hyz
          exact natCmp_eq_lt.mpr (by omega)
        rw [hxz]; simp
      | eq =>
        have hxz : natCmp x.toNat z.toNat = .lt := by
          have := natCmp_eq_lt.mp hxy
          have := natCmp_eq_eq.mp hyz
          exact natCmp_eq_lt.mpr (by omega)
        rw [hxz]; simp
    | eq =>
      cases hyz : natCmp y.toNat z.toNat with
      | gt => rw [hyz] at h2; exact absurd rfl h2
      | lt =>
        have hxz : natCmp x.toNat z.toNat = .lt := by
          have := natCmp_eq_eq.mp hxy
          have := natCmp_eq_lt.mp hyz
          exact natCmp_eq_lt.mpr (by omega)
        rw [hxz]; simp
      | eq =>
        have hxz : natCmp x.toNat z.toNat = .eq := by
          have := natCmp_eq_eq.mp hxy
          have := natCmp_eq_eq.mp hyz
          exact natCmp_eq_eq.mpr (by omega)
        rw [hxz]
        rw [hxy] at h1
        rw [hyz] at h2
        exact charListCmp_ne_gt_trans xs ys zs h1 h2

theorem rat_cross_eq {a b : ℚ} : a.num * b.den = b.num * a.den ↔ a = b := by
  constructor
  · intro h
    have h1 : ¬ a < b := by rw [Rat.lt_def]; omega
    have h2 : ¬ b < a := by rw [Rat.lt_def]; omega
    exact le_antisymm (not_lt.mp h2) (not_lt.mp h1)
  · intro h; subst h; ring

theorem ratCmp_eq_lt {a b : ℚ} : ratCmp a b = .lt ↔ a < b := by
  rw [Rat.lt_def]
  unfold ratCmp
  split <;> rename_i h1
  · simpa using h1
  · split <;> simp <;> omega

theorem ratCmp_eq_eq {a b : ℚ} : ratCmp a b = .eq ↔ a = b := by
  unfold ratCmp
  split <;> rename_i h1
  · simp
    intro h; subst h; omega
  · split <;> rename_i h2
    · simpa using rat_cross_eq.mp h2
    · simp
      intro h; subst h; omega

theorem ratCmp_eq_gt {a b : ℚ} : ratCmp a b = .gt ↔ b < a := by
  rw [Rat.lt_def]
  unfold ratCmp
  split <;> rename_i h1
  · simp; omega
  · split <;> rename_i h2 <;> simp <;> omega

theorem ratCmp_swap (a b : ℚ) : ratCmp b a = (ratCmp a b).swap := by
  cases hab : ratCmp a b with
  | lt => exact ratCmp_eq_gt.mpr (ratCmp_eq_lt.mp hab)
  | eq => exact ratCmp_eq_eq.mpr (ratCmp_eq_eq.mp hab).symm
  | gt => exact ratCmp_eq_lt.mpr (ratCmp_eq_gt.mp hab)

theorem strCmp_eq_eq {a b : String} : strCmp a b = .eq ↔ a = b := by
  unfold strCmp
  rw [charListCmp_eq_eq]
  constructor
  · intro h
    cases a; cases b
    exact congrArg String.mk h
  · intro h; rw [h]

theorem valuePartialCmp_swap (a b : Value) :
    valuePartialCmp b a = (valuePartialCmp a b).map Ordering.swap := by
  cases a with
  | Text s =>
    cases b with
    | Text t => simp [valuePartialCmp, strCmp, charListCmp_swap s.data t.data]
    | Number y => cases y <;> rfl
  | Number x =>
    cases b with
    | Text t => cases x <;> rfl
    | Number y =>
      cases x with
      | none => cases y <;> rfl
      | some p =>
        cases y with
        | none => rfl
        | some q => simp [valuePartialCmp, ratCmp_swap p q]

theorem valueCmpU_swap (a b : Value) : valueCmpU b a = (valueCmpU a b).swap := by
  unfold valueCmpU
  rw [valuePartialCmp_swap]
  cases valuePartialCmp a b <;> rfl

theorem valueCmpU_eq_beq {a b : Value} (ha : properValue a = true)
    (hb : properValue b = true) : valueCmpU a b = .eq ↔ valueBeq a b = true := by
  cases a with
  | Text s =>
    cases b with
    | Text t =>
      simp only [valueCmpU, valuePartialCmp, Option.getD_some, valueBeq]
      rw [strCmp_eq_eq]
      simp
    | Number y =>
      cases y with
      | none => simp [properValue] at hb
      | some q => simp [valueCmpU, valuePartialCmp, valueBeq]
  | Number x =>
    cases x with
    | none => simp [properValue] at ha
    | some p =>
      cases b with
      | Text t => simp [valueCmpU, valuePartialCmp, valueBeq]
      | Number y =>
        cases y with
        | none => simp [properValue] at hb
        | some q =>
          simp only [valueCmpU, valuePartialCmp, Option.getD_some, valueBeq]
          rw [ratCmp_eq_eq]
          simp

theorem valueCmpU_ne_gt_trans {a b c : Value} (ha : properValue a = true)
    (hb : properValue b = true) (hc : properValue c = true)
    (h1 : valueCmpU a b ≠ .gt) (h2 : valueCmpU b c ≠ .gt) :
    valueCmpU a c ≠ .gt := by
  cases a with
  | Text s =>
    cases c with
    | Text u =>
      cases b with
      | Text t =>
        simp only [valueCmpU, valuePartialCmp, Option.getD_some, strCmp] at h1 h2 ⊢
        exact charListCmp_ne_gt_trans s.data t.data u.data h1 h2
      | Number y =>
        cases y with
        | none => simp [properValue] at hb
        | some q => simp [valueCmpU, valuePartialCmp] at h2
    | Number z => cases z with
      | none => simp [properValue] at hc
      | some r => simp [valueCmpU, valuePartialCmp]
  | Number x =>
    cases x with
    | none => simp [properValue] at ha
    | some p =>
      cases b with
      | Text t => simp [valueCmpU, valuePartialCmp] at h1
      | Number y =>
        cases y with
        | none => simp [properValue] at hb
        | some q =>
          cases c with
          | Text u => simp [valueCmpU, valuePartialCmp] at h2
          | Number z =>
            cases z with
            | none => simp [properValue] at hc
            | some r =>
              simp only [valueCmpU, valuePartialCmp, Option.getD_some] at h1 h2 ⊢
              intro hgt
              have hrp : r < p := ratCmp_eq_gt.mp hgt
              have hpq : p ≤ q := not_lt.mp (fun hlt => h1 (ratCmp_eq_gt.mpr hlt))
              have hqr : q ≤ r := not_lt.mp (fun hlt => h2 (ratCmp_eq_gt.mpr hlt))
              exact absurd hrp (not_lt.mpr (hpq.trans hqr))

theorem valueBeq_symm (a b : Value) : valueBeq a b = valueBeq b a := by
  cases a <;> cases b <;> rename_i x y <;>
    first
      | rfl
      | (cases x <;> cases y <;> simp [valueBeq, eq_comm])
      | simp [valueBeq, eq_comm]

theorem valueBeq_trans {a b c : Value} (h1 : valueBeq a b = true)
    (h2 : valueBeq b c = true) : valueBeq a c = true := by
  cases a <;> cases b <;> cases c <;>
    simp_all [valueBeq] <;>
    (try rename_i x y z) <;>
    first
      | (cases x <;> cases y <;> cases z <;> simp_all)
      | (cases x <;> cases y <;> simp_all)

/-! ## Sorting and dedup lemmas -/

theorem bomLe_or (a b : BomRecord) : bomLe a b ∨ bomLe b a := by
  by_cases h : valueCmpU a.id b.id = .gt
  · right
    unfold bomLe bomCmp
    rw [valueCmpU_swap, h]
    simp [Ordering.swap]
  · exact Or.inl h

theorem bomLe_asymm {a b : BomRecord} (h : bomCmp a b = .gt) : bomLe b a := by
  unfold bomLe bomCmp
  rw [valueCmpU_swap]
  unfold bomCmp at h
  rw [h]
  simp [Ordering.swap]

theorem bomLe_trans {a b c : BomRecord} (ha : properValue a.id = true)
    (hb : properValue b.id = true) (hc : properValue c.id = true)
    (h1 : bomLe a b) (h2 : bomLe b c) : bomLe a c :=
  valueCmpU_ne_gt_trans ha hb hc h1 h2

theorem mem_orderedInsertBom {x y : BomRecord} :
    ∀ {l : List BomRecord}, y ∈ orderedInsertBom x l ↔ y = x ∨ y ∈ l := by
  intro l
  induction l with
  | nil => simp [orderedInsertBom]
  | cons z zs ih =>
    simp only [orderedInsertBom]
    cases bomCmp x z <;> simp [ih] <;> tauto

theorem countP_orderedInsertBom (p : BomRecord → Bool) (x : BomRecord) :
    ∀ (l : List BomRecord),
      (orderedInsertBom x l).countP p = (x :: l).countP p := by
  intro l
  induction l with
  | nil => rfl
  | cons z zs ih =>
    simp only [orderedInsertBom]
    cases bomCmp x z <;> simp [List.countP_cons, ih] <;> omega

theorem countP_sortBoms (p : BomRecord → Bool) :
    ∀ (l : List BomRecord), (sortBoms l).countP p = l.countP p := by
  intro l
  induction l with
  | nil => rfl
  | cons z zs ih =>
    simp only [sortBoms]
    rw [countP_orderedInsertBom, List.countP_cons, List.countP_cons, ih]

theorem mem_sortBoms {y : BomRecord} :
    ∀ {l : List BomRecord}, y ∈ sortBoms l ↔ y ∈ l := by
  intro l
  induction l with
  | nil => simp [sortBoms]
  | cons z zs ih =>
    simp only [sortBoms]
    rw [mem_orderedInsertBom]
    simp [ih]

theorem pairwise_orderedInsertBom (x : BomRecord) (hx : properValue x.id = true) :
    ∀ (l : List BomRecord), (∀ b ∈ l, properValue b.id = true) →
      l.Pairwise bomLe → (orderedInsertBom x l).Pairwise bomLe := by
  intro l
  induction l with
  | nil => intro _ _; simp [orderedInsertBom]
  | cons z zs ih =>
    intro hall hpw
    have hz := hall z (List.mem_cons_self z zs)
    have hzs : ∀ b ∈ zs, properValue b.id = true :=
      fun b hb => hall b (List.mem_cons_of_mem z hb)
    rw [List.pairwise_cons] at hpw
    obtain ⟨hzle, hpzs⟩ := hpw
    simp only [orderedInsertBom]
    cases hcmp : bomCmp x z with
    | gt =>
      rw [List.pairwise_cons]
      constructor
      · intro b hb
        rcases mem_orderedInsertBom.mp hb with rfl | hb
        · exact bomLe_asymm hcmp
        · exact hzle b hb
      · exact ih hzs hpzs
    | lt =>
      rw [List.pairwise_cons]
      refine ⟨?_, List.pairwise_cons.mpr ⟨hzle, hpzs⟩⟩
      intro b hb
      rcases List.mem_cons.mp hb with rfl | hb
      · intro hgt; rw [hcmp] at hgt; cases hgt
      · exact bomLe_trans hx hz (hzs b hb) (by rw [bomLe, hcmp]; intro hh; cases hh)
          (hzle b hb)
    | eq =>
      rw [List.pairwise_cons]
      refine ⟨?_, List.pairwise_cons.mpr ⟨hzle, hpzs⟩⟩
      intro b hb
      rcases List.mem_cons.mp hb with rfl | hb
      · intro hgt; rw [hcmp] at hgt; cases hgt
      · exact bomLe_trans hx hz (hzs b hb) (by rw [bomLe, hcmp]; intro hh; cases hh)
          (hzle b hb)

theorem pairwise_sortBoms :
    ∀ (l : List BomRecord), (∀ b ∈ l, properValue b.id = true) →
      (sortBoms l).Pairwise bomLe := by
  intro l
  induction l with
  | nil => intro _; simp [sortBoms]
  | cons z zs ih =>
    intro hall
    have hz := hall z (List.mem_cons_self z zs)
    have hzs : ∀ b ∈ zs, properValue b.id = true :=
      fun b hb => hall b (List.mem_cons_of_mem z hb)
    simp only [sortBoms]
    exact pairwise_orderedInsertBom z hz (sortBoms zs)
      (fun b hb => hzs b (mem_sortBoms.mp hb)) (ih hzs)

theorem valueBeq_symm_true {a b : Value} (h : valueBeq a b = true) :
    valueBeq b a = true := by
  rw [valueBeq_symm]; exact h

theorem dedupByIdAux_countP {v : Value} (hv : properValue v = true) :
    ∀ (l : List BomRecord) (prev : BomRecord), properValue prev.id = true →
      (∀ b ∈ l, properValue b.id = true) → (∀ b ∈ l, bomLe prev b) →
      l.Pairwise bomLe →
      (dedupByIdAux prev l).countP (fun b => valueBeq b.id v) =
        if valueBeq prev.id v = true then 0
        else min 1 (l.countP (fun b => valueBeq b.id v)) := by
  intro l
  induction l with
  | nil =>
    intro prev _ _ _ _
    simp only [dedupByIdAux, List.countP_nil]
    split <;> omega
  | cons x xs ih =>
    intro prev hprev hall hle hpw
    have hx := hall x (List.mem_cons_self x xs)
    have hxs : ∀ b ∈ xs, properValue b.id = true :=
      fun b hb => hall b (List.mem_cons_of_mem x hb)
    rw [List.pairwise_cons] at hpw
    obtain ⟨hxle, hpxs⟩ := hpw
    simp only [dedupByIdAux]
    by_cases hbx : valueBeq x.id prev.id = true
    · rw [if_pos hbx]
      rw [ih prev hprev hxs (fun b hb => hle b (List.mem_cons_of_mem x hb)) hpxs]
      by_cases hbv : valueBeq prev.id v = true
      · rw [if_pos hbv, if_pos hbv]
      · rw [if_neg hbv, if_neg hbv]
        have hxv : valueBeq x.id v = false := by
          by_contra hc
          rw [Bool.not_eq_false] at hc
          exact hbv (valueBeq_trans (valueBeq_symm_true hbx) hc)
        rw [List.countP_cons, hxv]
        simp
    · rw [if_neg hbx]
      have hAux := ih x hx hxs hxle hpxs
      by_cases hbv : valueBeq prev.id v = true
      · rw [if_pos hbv]
        have hxv : valueBeq x.id v = false := by
          by_contra hc
          rw [Bool.not_eq_false] at hc
          exact hbx (valueBeq_trans hc (valueBeq_symm_true hbv))
        have hcmp_prev_x : valueCmpU prev.id x.id = .lt := by
          have hne_gt : valueCmpU prev.id x.id ≠ .gt := hle x (List.mem_cons_self x xs)
          have hne_eq : valueCmpU prev.id x.id ≠ .eq := by
            intro heq
            have := (valueCmpU_eq_beq hprev hx).mp heq
            exact hbx (valueBeq_symm_true this)
          cases hcc : valueCmpU prev.id x.id
          · rfl
          · exact absurd hcc hne_eq
          · exact absurd hcc hne_gt
        have hxs_zero : xs.countP (fun b => valueBeq b.id v) = 0 := by
          rw [List.countP_eq_zero]
          intro y hy
          simp only [Bool.not_eq_true]
          by_contra hc
          rw [Bool.not_eq_false] at hc
          have hyprev : valueBeq y.id prev.id = true :=
            valueBeq_trans hc (valueBeq_symm_true hbv)
          have hy_proper := hxs y hy
          have hcmp_y_prev : valueCmpU y.id prev.id = .eq :=
            (valueCmpU_eq_beq hy_proper hprev).mpr hyprev
          have hx_le_prev : valueCmpU x.id prev.id ≠ .gt :=
            valueCmpU_ne_gt_trans hx hy_proper hprev (hxle y hy)
              (by rw [hcmp_y_prev]; intro hh; cases hh)
          have hgt : valueCmpU x.id prev.id = .gt := by
            rw [valueCmpU_swap, hcmp_prev_x]
            rfl
          exact hx_le_prev hgt
        rw [List.countP_cons, hAux, hxv, hxs_zero]
        simp
      · rw [if_neg hbv]
        rw [List.countP_cons, hAux, List.countP_cons]
        by_cases hbxv : valueBeq x.id v = true
        · rw [hbxv]
          simp
        · have hfalse : valueBeq x.id v = false := by simpa using hbxv
          rw [hfalse]
          simp

theorem dedupById_countP {v : Value} (hv : properValue v = true)
    (l : List BomRecord) (hall : ∀ b ∈ l, properValue b.id = true)
    (hpw : l.Pairwise bomLe) :
    (dedupById l).countP (fun b => valueBeq b.id v) =
      min 1 (l.countP (fun b => valueBeq b.id v)) := by
  cases l with
  | nil => rfl
  | cons x xs =>
    have hx := hall x (List.mem_cons_self x xs)
    have hxs : ∀ b ∈ xs, properValue b.id = true :=
      fun b hb => hall b (List.mem_cons_of_mem x hb)
    rw [List.pairwise_cons] at hpw
    obtain ⟨hxle, hpxs⟩ := hpw
    simp only [dedupById]
    rw [List.countP_cons, List.countP_cons]
    rw [dedupByIdAux_countP hv xs x hx hxs hxle hpxs]
    by_cases hbxv : valueBeq x.id v = true
    · rw [if_pos hbxv, hbxv]
      simp
    · have hfalse : valueBeq x.id v = false := by simpa using hbxv
      rw [if_neg hbxv, hfalse]
      simp

/-! ## Fold traversal lemmas -/

theorem preorderList_append (xs ys : List Node) :
    preorderList (xs ++ ys) = preorderList xs ++ preorderList ys := by
  induction xs with
  | nil => rfl
  | cons n ns ih => simp [preorderList, ih]

theorem preorder_pushChild (p : LevelNode) (c : Node) :
    (pushChild p c).node.preorder = p.node.preorder ++ c.preorder := by
  cases hp : p.node with
  | mk attrs children =>
    simp [pushChild, hp, Node.preorder, Node.attributes, Node.children,
      preorderList_append, preorderList]

theorem level_pushChild (p : LevelNode) (c : Node) :
    (pushChild p c).level = p.level := rfl

theorem unwindAux_flat (cur : Value) :
    ∀ (stack : List LevelNode) (pending : Node) (tops : List Node),
      preorderList (unwindAux cur stack pending tops).2 ++
          stackRecords (unwindAux cur stack pending tops).1 =
        preorderList tops ++ stackRecords stack ++ pending.preorder := by
  intro stack
  induction stack with
  | nil =>
    intro pending tops
    simp [unwindAux, stackRecords, preorderList_append, preorderList]
  | cons parent rest ih =>
    intro pending tops
    simp only [unwindAux]
    cases hcmp : valuePartialCmp (pushChild parent pending).level cur with
    | none =>
      simp [stackRecords, preorder_pushChild, List.append_assoc]
    | some o =>
      cases o with
      | lt => simp [stackRecords, preorder_pushChild, List.append_assoc]
      | eq =>
        rw [ih]
        simp [stackRecords, preorder_pushChild, List.append_assoc]
      | gt =>
        rw [ih]
        simp [stackRecords, preorder_pushChild, List.append_assoc]

theorem unwindWorkingStack_flat (stack : List LevelNode) (tops : List Node)
    (cur : Value) :
    preorderList (unwindWorkingStack stack tops cur).2 ++
        stackRecords (unwindWorkingStack stack tops cur).1 =
      preorderList tops ++ stackRecords stack := by
  cases stack with
  | nil => simp [unwindWorkingStack, stackRecords]
  | cons top rest =>
    simp only [unwindWorkingStack]
    cases hcmp : valuePartialCmp top.level cur with
    | none => simp [stackRecords]
    | some o =>
      cases o with
      | lt => simp [stackRecords]
      | eq =>
        rw [unwindAux_flat]
        simp [stackRecords, List.append_assoc]
      | gt =>
        rw [unwindAux_flat]
        simp [stackRecords, List.append_assoc]

theorem unwindAllAux_flat :
    ∀ (stack : List LevelNode) (pending : Node) (tops : List Node),
      preorderList (unwindAllAux stack pending tops) =
        preorderList tops ++ stackRecords stack ++ pending.preorder := by
  intro stack
  induction stack with
  | nil =>
    intro pending tops
    simp [unwindAllAux, stackRecords, preorderList_append, preorderList]
  | cons parent rest ih =>
    intro pending tops
    simp only [unwindAllAux]
    rw [ih]
    simp [stackRecords, preorder_pushChild, List.append_assoc]

theorem unwindWorkingStackUnconditionally_flat (stack : List LevelNode)
    (tops : List Node) :
    preorderList (unwindWorkingStackUnconditionally stack tops) =
      preorderList tops ++ stackRecords stack := by
  cases stack with
  | nil => simp [unwindWorkingStackUnconditionally, stackRecords]
  | cons top rest =>
    simp only [unwindWorkingStackUnconditionally]
    rw [unwindAllAux_flat]
    simp [stackRecords, List.append_assoc]

theorem foldRecords_flat (idx : Nat) :
    ∀ (records : List (List Value)) (stack : List LevelNode) (tops : List Node)
      (out : List LevelNode × List Node),
      foldRecords idx records stack tops = .ok out →
      preorderList out.2 ++ stackRecords out.1 =
        preorderList tops ++ stackRecords stack ++ records := by
  intro records
  induction records with
  | nil =>
    intro stack tops out h
    simp only [foldRecords, Except.ok.injEq] at h
    rw [← h]
    simp
  | cons record rest ih =>
    intro stack tops out h
    simp only [foldRecords] at h
    split at h
    · cases h
    · rename_i cur hg
      by_cases hemp : stack.isEmpty
      · rw [if_pos hemp] at h
        calc preorderList out.2 ++ stackRecords out.1
            = preorderList tops ++
                stackRecords ({ level := cur, node := .mk record [] } :: stack) ++
                rest := ih _ _ _ h
          _ = preorderList tops ++ stackRecords stack ++ (record :: rest) := by
              simp [stackRecords, Node.preorder, preorderList, List.append_assoc]
      · rw [if_neg hemp] at h
        calc preorderList out.2 ++ stackRecords out.1
            = preorderList (unwindWorkingStack stack tops cur).2 ++
                stackRecords ({ level := cur, node := .mk record [] } ::
                  (unwindWorkingStack stack tops cur).1) ++ rest := ih _ _ _ h
          _ = (preorderList (unwindWorkingStack stack tops cur).2 ++
                stackRecords (unwindWorkingStack stack tops cur).1) ++
                ([record] ++ rest) := by
              simp [stackRecords, Node.preorder, preorderList, List.append_assoc]
          _ = (preorderList tops ++ stackRecords stack) ++ ([record] ++ rest) := by
              rw [unwindWorkingStack_flat]
          _ = preorderList tops ++ stackRecords stack ++ (record :: rest) := by
              simp [List.append_assoc]

theorem foldRecords_short_panics (idx : Nat) :
    ∀ (records : List (List Value)) (stack : List LevelNode) (tops : List Node)
      (r : List Value), r ∈ records → r.length ≤ idx →
      foldRecords idx records stack tops =
        .error (.runtimePanic "index out of bounds") := by
  intro records
  induction records with
  | nil => intro _ _ r hr; cases hr
  | cons record rest ih =>
    intro stack tops r hr hlen
    rcases List.mem_cons.mp hr with rfl | hr
    · have : r.get? idx = none := List.get?_eq_none.mpr hlen
      simp only [foldRecords, this]
    · simp only [foldRecords]
      cases hg : record.get? idx with
      | none => rfl
      | some cur => exact ih _ _ r hr hlen

/-! ## Materializer characterization -/

mutual

theorem recursivelyMakeRecords_ok_spec (indices : AttributeIndices) :
    ∀ (n : Node) (p : Option Value) (b : List BomRecord)
      (e : List BomEntryRecord),
      recursivelyMakeRecords indices n p = .ok (b, e) →
      b = ((allNodes n).filter fun m => !m.children.isEmpty).map (mkHeader indices) ∧
      e = (entryPairs indices p n).filterMap
            (fun pr => pr.1.map fun pid => mkEntry indices pid pr.2)
  | .mk attrs children, p, b, e => by
    intro h
    simp only [recursivelyMakeRecords] at h
    split at h
    · cases h
    · rename_i node_id hid
      have hid2 : attrs[indices.id]? = some node_id := by simpa using hid
      have hidOf : idOf indices (.mk attrs children) = node_id := by
        simp [idOf, Node.attributes, hid2]
      by_cases hch : children.isEmpty
      · rw [if_pos hch] at h
        have hchn : children = [] := List.isEmpty_iff.mp hch
        subst hchn
        rw [Except.ok.injEq, Prod.mk.injEq] at h
        obtain ⟨rfl, rfl⟩ := h
        constructor
        · simp [allNodes, allNodesList, Node.children]
        · cases p with
          | none => simp [entryPairs, entryPairsList]
          | some pid =>
            simp [entryPairs, entryPairsList, mkEntry, entryTypeOf, hidOf,
              qtyOf, Node.attributes, Node.children]
      · rw [if_neg hch] at h
        split at h
        · cases h
        · rename_i name hname
          split at h
          · cases h
          · rename_i bs es hrec
            rw [Except.ok.injEq, Prod.mk.injEq] at h
            obtain ⟨rfl, rfl⟩ := h
            obtain ⟨hbs, hes⟩ :=
              recursivelyMakeRecordsList_ok_spec indices children (some node_id) bs es hrec
            have hchb : children.isEmpty = false := by
              simpa using hch
            have hname2 : attrs[indices.name]? = some name := by simpa using hname
            constructor
            · rw [hbs]
              simp [allNodes, Node.children, hchb, mkHeader, hidOf, nameOf,
                Node.attributes, hname2]
            · rw [hes]
              cases p with
              | none => simp [entryPairs, hidOf]
              | some pid =>
                simp [entryPairs, hidOf, mkEntry, entryTypeOf, Node.children,
                  hchb, qtyOf, Node.attributes, hid]

theorem recursivelyMakeRecordsList_ok_spec (indices : AttributeIndices) :
    ∀ (l : List Node) (p : Option Value) (b : List BomRecord)
      (e : List BomEntryRecord),
      recursivelyMakeRecordsList indices l p = .ok (b, e) →
      b = ((allNodesList l).filter fun m => !m.children.isEmpty).map (mkHeader indices) ∧
      e = (entryPairsList indices p l).filterMap
            (fun pr => pr.1.map fun pid => mkEntry indices pid pr.2)
  | [], p, b, e => by
    intro h
    simp only [recursivelyMakeRecordsList] at h
    rw [Except.ok.injEq, Prod.mk.injEq] at h
    obtain ⟨rfl, rfl⟩ := h
    simp [allNodesList, entryPairsList]
  | n :: ns, p, b, e => by
    intro h
    simp only [recursivelyMakeRecordsList] at h
    split at h
    · cases h
    · rename_i b1 e1 h1
      split at h
      · cases h
      · rename_i b2 e2 h2
        rw [Except.ok.injEq, Prod.mk.injEq] at h
        obtain ⟨rfl, rfl⟩ := h
        obtain ⟨hb1, he1⟩ := recursivelyMakeRecords_ok_spec indices n p b1 e1 h1
        obtain ⟨hb2, he2⟩ := recursivelyMakeRecordsList_ok_spec indices ns p b2 e2 h2
        constructor
        · rw [hb1, hb2]
          simp [allNodesList, List.filter_append, List.map_append]
        · rw [he1, he2]
          simp [entryPairsList, List.filterMap_append]

end

theorem formatItemSync_ok_parts (folded_data : FoldedData)
    (rules : ItemSyncFormatRules) (indices : AttributeIndices)
    (out : ItemSyncFormat)
    (hind : AttributeIndices.new folded_data rules = .ok indices)
    (hok : formatItemSync folded_data rules = .ok out) :
    ∃ headers,
      recursivelyMakeRecordsList indices folded_data.top_level_nodes none =
        .ok (headers, out.bom_entries) ∧
      out.boms = dedupById (sortBoms headers) := by
  simp only [formatItemSync, hind] at hok
  split at hok
  · cases hok
  · rename_i headers entries0 hrec
    rw [Except.ok.injEq] at hok
    subst hok
    exact ⟨headers, hrec, rfl⟩

/-! ## Claim theorems -/

/-- C7: for every table with at least one record and at least one key whose
key list does not contain `level_key`, `fold` fails with `InvalidArgument`. -/
theorem c7_missing_level_key (flat_data : FlatData) (level_key : String)
    (hrec : flat_data.records ≠ []) (hkeys : flat_data.keys ≠ [])
    (hmiss : level_key ∉ flat_data.keys) :
    fold flat_data level_key =
      .error (.invalidArgument "level key not found in the flat data keys") := by
  have hrb : flat_data.records.isEmpty = false := by
    cases hl : flat_data.records.isEmpty
    · rfl
    · exact absurd (List.isEmpty_iff.mp hl) hrec
  have hkb : flat_data.keys.isEmpty = false := by
    cases hl : flat_data.keys.isEmpty
    · rfl
    · exact absurd (List.isEmpty_iff.mp hl) hkeys
  have hfind : flat_data.keys.findIdx? (fun item => item == level_key) = none := by
    rw [List.findIdx?_eq_none_iff]
    intro x hx
    rw [beq_eq_false_iff_ne]
    exact fun hxe => hmiss (hxe ▸ hx)
  unfold fold
  simp [hrb, hkb, hfind]

/-- C7 witness at a concrete table and missing key. -/
theorem c7_witness :
    fold { keys := ["a"], records := [[.Text "x"]] } "lvl" =
      .error (.invalidArgument "level key not found in the flat data keys") :=
  c7_missing_level_key _ _ (by decide) (by decide) (by decide)

/-- C8: for every table whose record list or key list is empty, `fold`
returns the empty forest, for every `level_key` (present or not). -/
theorem c8_empty_table (flat_data : FlatData) (level_key : String)
    (h : flat_data.records = [] ∨ flat_data.keys = []) :
    fold flat_data level_key =
      .ok { attribute_keys := [], top_level_nodes := [] } := by
  unfold fold
  rcases h with h | h <;> rw [h] <;> simp

/-- C8 witness: empty key list, non-empty records, level key absent. -/
theorem c8_witness :
    fold { keys := [], records := [[.Text "x"]] } "missing" =
      .ok { attribute_keys := [], top_level_nodes := [] } :=
  c8_empty_table _ _ (Or.inr rfl)

/-- C6 (amended): when the key list is non-empty, a successful `fold` yields
a forest whose depth-first pre-order row traversal is exactly the input
record list — nothing dropped, duplicated or reordered. (The original claim
fails for a table with empty keys and non-empty records, which `fold` maps
to the empty forest.) -/
theorem c6_preorder_eq_records (flat_data : FlatData) (level_key : String)
    (out : FoldedData) (hkeys : flat_data.keys ≠ [])
    (h : fold flat_data level_key = .ok out) :
    preorderList out.top_level_nodes = flat_data.records := by
  unfold fold at h
  split at h
  · rename_i hcond
    rw [Except.ok.injEq] at h
    subst h
    have hre : flat_data.records.isEmpty = true := by
      rcases Bool.or_eq_true_iff.mp hcond with h1 | h2
      · exact h1
      · exact absurd (List.isEmpty_iff.mp h2) hkeys
    simp [preorderList, List.isEmpty_iff.mp hre]
  · split at h
    · cases h
    · rename_i idx hfind
      split at h
      · cases h
      · rename_i stack tops hfr
        rw [Except.ok.injEq] at h
        subst h
        show preorderList (unwindWorkingStackUnconditionally stack tops) =
          flat_data.records
        rw [unwindWorkingStackUnconditionally_flat]
        have hflat := foldRecords_flat idx flat_data.records [] [] (stack, tops) hfr
        simpa [stackRecords, preorderList] using hflat

/-- C6 counterexample to the unrestricted claim: with empty keys and one
(empty) record, `fold` succeeds with an empty forest, dropping the record. -/
theorem c6_counterexample :
    fold { keys := [], records := [[]] } "level" =
        .ok { attribute_keys := [], top_level_nodes := [] } ∧
      preorderList ([] : List Node) ≠ [[]] :=
  ⟨rfl, by simp [preorderList]⟩

/-- C6 witness on the worked example. -/
theorem c6_witness :
    preorderList exampleForest.top_level_nodes = exampleFlat.records :=
  c6_preorder_eq_records exampleFlat "level" exampleForest (by decide) (by rfl)

/-- C2 (amended): a record shorter than the level index makes `fold` panic
(out-of-bounds indexing), not return `InvalidArgument`; the materializer's
recursion returns `InvalidArgument` when a node's row is too short for the
resolved id index, or (for a node with children) for the name index. -/
theorem c2_short_row_errors :
    (∀ (flat_data : FlatData) (level_key : String) (idx : Nat) (r : List Value),
      flat_data.keys ≠ [] →
      flat_data.keys.findIdx? (fun item => item == level_key) = some idx →
      r ∈ flat_data.records → r.length ≤ idx →
      fold flat_data level_key =
        .error (.runtimePanic "index out of bounds")) ∧
    (∀ (indices : AttributeIndices) (n : Node) (p : Option Value),
      n.attributes.length ≤ indices.id →
      recursivelyMakeRecords indices n p =
        .error (.invalidArgument "Node is missing id")) ∧
    (∀ (indices : AttributeIndices) (n : Node) (p : Option Value),
      indices.id < n.attributes.length → n.children ≠ [] →
      n.attributes.length ≤ indices.name →
      recursivelyMakeRecords indices n p =
        .error (.invalidArgument "Unable to find name field in BOM node.")) := by
  refine ⟨?_, ?_, ?_⟩
  · intro flat_data level_key idx r hkeys hfind hmem hlen
    have hrb : flat_data.records.isEmpty = false := by
      cases hl : flat_data.records.isEmpty
      · rfl
      · rw [List.isEmpty_iff.mp hl] at hmem; cases hmem
    have hkb : flat_data.keys.isEmpty = false := by
      cases hl : flat_data.keys.isEmpty
      · rfl
      · exact absurd (List.isEmpty_iff.mp hl) hkeys
    unfold fold
    simp [hrb, hkb, hfind,
      foldRecords_short_panics idx flat_data.records [] [] r hmem hlen]
  · intro indices n p hlen
    cases n with
    | mk attrs children =>
      have hget : attrs.get? indices.id = none :=
        List.get?_eq_none.mpr (by simpa [Node.attributes] using hlen)
      have hget2 : attrs[indices.id]? = none := by simpa using hget
      simp [recursivelyMakeRecords, hget2]
  · intro indices n p hid hch hlen
    cases n with
    | mk attrs children =>
      have hlt : indices.id < attrs.length := by simpa [Node.attributes] using hid
      have hget : attrs.get? indices.id = some (attrs.get ⟨indices.id, hlt⟩) :=
        List.get?_eq_get hlt
      have hget2 : attrs[indices.id]? = some (attrs.get ⟨indices.id, hlt⟩) := by
        simpa using hget
      have hname : attrs.get? indices.name = none :=
        List.get?_eq_none.mpr (by simpa [Node.attributes] using hlen)
      have hname2 : attrs[indices.name]? = none := by simpa using hname
      have hchb : children.isEmpty = false := by
        cases hl : children.isEmpty
        · rfl
        · exact absurd (List.isEmpty_iff.mp hl) (by simpa [Node.children] using hch)
      simp [recursivelyMakeRecords, hget2, hchb, hname2]

/-- C2 counterexample to the claim as stated: a ragged row makes `fold`
panic (modelled `runtimePanic`), which is not an `InvalidArgument` return. -/
theorem c2_counterexample :
    fold { keys := ["a", "lvl"], records := [[.Text "x"]] } "lvl" =
      .error (.runtimePanic "index out of bounds") := by rfl

/-- C2 witness exercising all three branches of the amended claim. -/
theorem c2_witness :
    fold { keys := ["a", "lvl"], records := [[.Text "x"]] } "lvl" =
        .error (.runtimePanic "index out of bounds") ∧
      recursivelyMakeRecords ⟨5, 0, none⟩ (.mk [.Text "i"] []) none =
        .error (.invalidArgument "Node is missing id") ∧
      recursivelyMakeRecords ⟨0, 7, none⟩
          (.mk [.Text "i"] [.mk [.Text "c"] []]) none =
        .error (.invalidArgument "Unable to find name field in BOM node.") :=
  ⟨c2_short_row_errors.1 _ "lvl" 1 [.Text "x"] (by decide) (by rfl) (by simp)
      (by decide),
   c2_short_row_errors.2.1 ⟨5, 0, none⟩ _ none (by decide),
   c2_short_row_errors.2.2 ⟨0, 7, none⟩ _ none (by decide)
     (by simp [Node.children]) (by decide)⟩

/-- C1 counterexample: on the worked example the root has three direct
children (record `3` is nested under record `2`), not the four direct
children the spec asserts. -/
theorem c1_counterexample :
    (fold exampleFlat "level").map
        (fun out => out.top_level_nodes.map fun n => n.children.length) ≠
      .ok [4] := by
  intro h
  have h3 : (Except.ok [3] : Except Error (List Nat)) = .ok [4] :=
    Eq.trans (by rfl) h
  simp at h3

/-- C1 (amended): on the worked example `fold` produces one root whose
direct children are records `1`, `2` and `4`, with record `3` the sole
child of record `2` — the exact shape of the repository's own
`single_root_multi_layer` test. -/
theorem c1_worked_example_shape :
    fold exampleFlat "level" = .ok exampleForest := by rfl

/-- C5 (amended): during the unwind step the top is popped (one
`finalize_working_node` step, after which unwinding continues) exactly when
the comparison yields `Greater` or `Equal`, and the unwind stops exactly
when it yields `Less` or `None`; but `None` arises only when a `NaN` level
is involved — a `Text` and a `Number` level are always comparable
(`Text < Number` by variant order), contrary to the claim's reading of
"incomparable" as "one Text and one Number". -/
theorem c5_unwind_routing :
    (∀ (top : LevelNode) (rest : List LevelNode) (tops : List Node) (cur : Value),
      valuePartialCmp top.level cur = some .gt ∨
        valuePartialCmp top.level cur = some .eq →
      unwindWorkingStack (top :: rest) tops cur =
        unwindWorkingStack (finalizeWorkingNode (top :: rest, tops)).1
          (finalizeWorkingNode (top :: rest, tops)).2 cur) ∧
    (∀ (top : LevelNode) (rest : List LevelNode) (tops : List Node) (cur : Value),
      valuePartialCmp top.level cur = some .lt ∨
        valuePartialCmp top.level cur = none →
      unwindWorkingStack (top :: rest) tops cur = (top :: rest, tops)) ∧
    (∀ (a b : Value),
      valuePartialCmp a b = none ↔
        ∃ x y, a = .Number x ∧ b = .Number y ∧ (x = none ∨ y = none)) := by
  refine ⟨?_, ?_, ?_⟩
  · intro top rest tops cur hcmp
    cases rest with
    | nil =>
      rcases hcmp with hcmp | hcmp <;>
        simp [unwindWorkingStack, unwindAux, finalizeWorkingNode, hcmp]
    | cons parent rest2 =>
      rcases hcmp with hcmp | hcmp
      · simp only [unwindWorkingStack, finalizeWorkingNode, hcmp]
        simp only [unwindAux]
      · simp only [unwindWorkingStack, finalizeWorkingNode, hcmp]
        simp only [unwindAux]
  · intro top rest tops cur hcmp
    rcases hcmp with hcmp | hcmp <;> simp [unwindWorkingStack, hcmp]
  · intro a b
    constructor
    · intro h
      cases a with
      | Text s => cases b <;> simp [valuePartialCmp] at h
      | Number x =>
        cases b with
        | Text t => simp [valuePartialCmp] at h
        | Number y =>
          cases x with
          | none => exact ⟨none, y, rfl, rfl, Or.inl rfl⟩
          | some p =>
            cases y with
            | none => exact ⟨some p, none, rfl, rfl, Or.inr rfl⟩
            | some q => simp [valuePartialCmp] at h
    · rintro ⟨x, y, rfl, rfl, hxy⟩
      rcases hxy with rfl | rfl
      · cases y <;> rfl
      · cases x <;> rfl

/-- C5 counterexample: a `Number` top level against a `Text` current level
is mixed-type, yet the code pops the top (comparison is `Greater`), while
the claim says unwinding must stop there. -/
theorem c5_counterexample :
    unwindWorkingStack [⟨.Number (some 2), .mk [] []⟩] [] (.Text "1") ≠
      ([⟨.Number (some 2), .mk [] []⟩], []) := by
  intro h
  have h2 : (([], [Node.mk [] []]) : List LevelNode × List Node) =
      ([⟨.Number (some 2), .mk [] []⟩], []) := Eq.trans (by rfl) h
  simp at h2

/-- C5 witness: a `Less` comparison stops the unwind. -/
theorem c5_witness :
    unwindWorkingStack [⟨.Text "1", .mk [] []⟩] [] (.Text "2") =
      ([⟨.Text "1", .mk [] []⟩], []) :=
  c5_unwind_routing.2.1 ⟨.Text "1", .mk [] []⟩ [] [] (.Text "2")
    (Or.inl (by rfl))

/-- C4 (amended): when `name_key` is configured but absent from the
attribute keys, materialization does not fail with `InvalidArgument` — it
behaves exactly as if `name_key` were absent, resolving the name to the id
column (the §4.2 fallback). -/
theorem c4_name_key_fallback (folded_data : FoldedData)
    (rules : ItemSyncFormatRules) (s : String)
    (hs : rules.name_key = some s)
    (hmiss : folded_data.attribute_keys.findIdx? (fun a => a == s) = none) :
    formatItemSync folded_data rules =
      formatItemSync folded_data { rules with name_key := none } := by
  unfold formatItemSync AttributeIndices.new
  have hid_eq : ({ rules with name_key := none } : ItemSyncFormatRules).id_key =
      rules.id_key := rfl
  have hq_eq :
      ({ rules with name_key := none } : ItemSyncFormatRules).quantity_key =
        rules.quantity_key := rfl
  rw [hid_eq, hq_eq]
  cases hidk : folded_data.attribute_keys.findIdx? (fun a => a == rules.id_key) with
  | none => rfl
  | some id_index => simp [hs, hmiss]

/-- C4 counterexample: `name_key = "missing"` is absent from the key list,
`id_key` resolves, yet materialize returns `Ok` (name falls back to the id
column) instead of the `InvalidArgument` the claim states. -/
theorem c4_counterexample :
    formatItemSync dupForest nameMissingRules = .ok dupOut := by rfl

/-- C4 witness at concrete inputs. -/
theorem c4_witness :
    formatItemSync dupForest nameMissingRules =
      formatItemSync dupForest { nameMissingRules with name_key := none } :=
  c4_name_key_fallback dupForest nameMissingRules "missing" rfl rfl

/-- C9: in every successful materialization the entry list is exactly one
`EntryRecord` per node that has a parent (kind `"part"` iff the node is a
leaf, as `mkEntry` computes), with no entry for top-level nodes; and the
header list before post-processing is exactly one `HeaderRecord` per node
with at least one child, carrying its id and resolved name, with no header
for leaves. -/
theorem c9_node_contributions (folded_data : FoldedData)
    (rules : ItemSyncFormatRules) (indices : AttributeIndices)
    (out : ItemSyncFormat)
    (hind : AttributeIndices.new folded_data rules = .ok indices)
    (hok : formatItemSync folded_data rules = .ok out) :
    out.bom_entries =
      (entryPairsList indices none folded_data.top_level_nodes).filterMap
        (fun pr => pr.1.map fun pid => mkEntry indices pid pr.2) ∧
    ∃ headers,
      recursivelyMakeRecordsList indices folded_data.top_level_nodes none =
        .ok (headers, out.bom_entries) ∧
      headers =
        ((allNodesList folded_data.top_level_nodes).filter
            fun m => !m.children.isEmpty).map (mkHeader indices) ∧
      out.boms = dedupById (sortBoms headers) := by
  obtain ⟨headers, hrec, hboms⟩ :=
    formatItemSync_ok_parts folded_data rules indices out hind hok
  obtain ⟨hh, he⟩ :=
    recursivelyMakeRecordsList_ok_spec indices folded_data.top_level_nodes none
      headers out.bom_entries hrec
  exact ⟨he, headers, hrec, hh, hboms⟩

/-- C9 witness on a concrete forest with two assemblies and two parts. -/
theorem c9_witness :
    dupOut.bom_entries =
      (entryPairsList ⟨0, 0, none⟩ none dupForest.top_level_nodes).filterMap
        (fun pr => pr.1.map fun pid => mkEntry ⟨0, 0, none⟩ pid pr.2) ∧
    ∃ headers,
      recursivelyMakeRecordsList ⟨0, 0, none⟩ dupForest.top_level_nodes none =
        .ok (headers, dupOut.bom_entries) ∧
      headers =
        ((allNodesList dupForest.top_level_nodes).filter
            fun m => !m.children.isEmpty).map (mkHeader ⟨0, 0, none⟩) ∧
      dupOut.boms = dedupById (sortBoms headers) :=
  c9_node_contributions dupForest idOnlyRules ⟨0, 0, none⟩ dupOut rfl rfl

/-- C10: every emitted entry's quantity is the `Number` at the resolved
quantity index when that index is configured and the attribute there is a
`Number`; in every other case (no quantity key, unresolved key, short row,
or `Text` attribute) the quantity silently defaults to `1.0`. -/
theorem c10_quantity_default (folded_data : FoldedData)
    (rules : ItemSyncFormatRules) (indices : AttributeIndices)
    (out : ItemSyncFormat) (entry : BomEntryRecord)
    (hind : AttributeIndices.new folded_data rules = .ok indices)
    (hok : formatItemSync folded_data rules = .ok out)
    (he : entry ∈ out.bom_entries) :
    ∃ pid n, entry = mkEntry indices pid n ∧
      ((∃ qi q, indices.quantity = some qi ∧
          n.attributes.get? qi = some (.Number q) ∧ entry.quantity = q) ∨
        ((∀ qi, indices.quantity = some qi →
            ∀ q, n.attributes.get? qi ≠ some (.Number q)) ∧
          entry.quantity = some 1)) := by
  obtain ⟨headers, hrec, -⟩ :=
    formatItemSync_ok_parts folded_data rules indices out hind hok
  obtain ⟨-, hes⟩ :=
    recursivelyMakeRecordsList_ok_spec indices folded_data.top_level_nodes none
      headers out.bom_entries hrec
  rw [hes] at he
  obtain ⟨pr, hmem, hpr⟩ := List.mem_filterMap.mp he
  obtain ⟨p1, n⟩ := pr
  cases p1 with
  | none => simp at hpr
  | some pid =>
    simp only [Option.map_some', Option.some.injEq] at hpr
    subst hpr
    refine ⟨pid, n, rfl, ?_⟩
    cases hqi : indices.quantity with
    | none =>
      right
      refine ⟨?_, ?_⟩
      · intro qi h
        cases h
      · show qtyOf indices n = some 1
        simp [qtyOf, hqi]
    | some qi =>
      cases hget : n.attributes.get? qi with
      | none =>
        right
        refine ⟨?_, ?_⟩
        · intro qi2 hqi2 q
          rw [Option.some.injEq] at hqi2
          subst hqi2
          rw [hget]
          intro hc
          cases hc
        · show qtyOf indices n = some 1
          have hget2 : n.attributes[qi]? = none := by simpa using hget
          simp [qtyOf, hqi, hget2]
      | some val =>
        cases val with
        | Number q =>
          left
          refine ⟨qi, q, rfl, hget, ?_⟩
          show qtyOf indices n = q
          have hget2 : n.attributes[qi]? = some (.Number q) := by simpa using hget
          simp [qtyOf, hqi, hget2]
        | Text s =>
          right
          refine ⟨?_, ?_⟩
          · intro qi2 hqi2 q
            rw [Option.some.injEq] at hqi2
            subst hqi2
            rw [hget]
            intro hc
            rw [Option.some.injEq] at hc
            cases hc
          · show qtyOf indices n = some 1
            have hget2 : n.attributes[qi]? = some (.Text s) := by simpa using hget
            simp [qtyOf, hqi, hget2]

/-- C10 witness: a configured quantity column holding `Text` for the child
entry defaults to quantity `1.0`. -/
theorem c10_witness :
    ∃ pid n,
      ({ bom_id := .Text "a", entry_type := "part", entry_id := .Text "b",
          quantity := some 1 } : BomEntryRecord) = mkEntry ⟨0, 0, some 1⟩ pid n ∧
      ((∃ qi q, (⟨0, 0, some 1⟩ : AttributeIndices).quantity = some qi ∧
          n.attributes.get? qi = some (.Number q) ∧
          ({ bom_id := .Text "a", entry_type := "part", entry_id := .Text "b",
              quantity := some 1 } : BomEntryRecord).quantity = q) ∨
        ((∀ qi, (⟨0, 0, some 1⟩ : AttributeIndices).quantity = some qi →
            ∀ q, n.attributes.get? qi ≠ some (.Number q)) ∧
          ({ bom_id := .Text "a", entry_type := "part", entry_id := .Text "b",
              quantity := some 1 } : BomEntryRecord).quantity = some 1)) :=
  c10_quantity_default qtyForest qtyRules ⟨0, 0, some 1⟩ qtyOut
    { bom_id := .Text "a", entry_type := "part", entry_id := .Text "b",
      quantity := some 1 } rfl rfl (by decide)

/-- C3 (amended): after sort-and-dedup the header list has exactly one
record per duplicated id, provided no id involved is `NaN`: for every
proper value `v`, the number of output headers whose id equals `v` is
`min 1 (number of internal nodes whose id equals v)`. (The unrestricted
claim fails when a `NaN` id sits between two copies of the same id: the
`unwrap_or(Equal)` comparator treats `NaN` as tied with everything, the
sort leaves the copies separated, and consecutive dedup cannot merge
them.) -/
theorem c3_header_dedup_unique (folded_data : FoldedData)
    (rules : ItemSyncFormatRules) (indices : AttributeIndices)
    (out : ItemSyncFormat) (v : Value)
    (hind : AttributeIndices.new folded_data rules = .ok indices)
    (hok : formatItemSync folded_data rules = .ok out)
    (hproper : ∀ n ∈ allNodesList folded_data.top_level_nodes,
      n.children.isEmpty = false → properValue (idOf indices n) = true)
    (hv : properValue v = true) :
    out.boms.countP (fun b => valueBeq b.id v) =
      min 1 ((allNodesList folded_data.top_level_nodes).countP
        fun n => !n.children.isEmpty && valueBeq (idOf indices n) v) := by
  obtain ⟨headers, hrec, hboms⟩ :=
    formatItemSync_ok_parts folded_data rules indices out hind hok
  obtain ⟨hh, -⟩ :=
    recursivelyMakeRecordsList_ok_spec indices folded_data.top_level_nodes none
      headers out.bom_entries hrec
  have hprop_headers : ∀ b ∈ headers, properValue b.id = true := by
    intro b hb
    rw [hh] at hb
    obtain ⟨n, hn, rfl⟩ := List.mem_map.mp hb
    obtain ⟨hn_mem, hn_int⟩ := List.mem_filter.mp hn
    have hint : n.children.isEmpty = false := by simpa using hn_int
    exact hproper n hn_mem hint
  have hsorted := pairwise_sortBoms headers hprop_headers
  have hprop_sorted : ∀ b ∈ sortBoms headers, properValue b.id = true :=
    fun b hb => hprop_headers b (mem_sortBoms.mp hb)
  rw [hboms, dedupById_countP hv (sortBoms headers) hprop_sorted hsorted,
    countP_sortBoms]
  congr 1
  rw [hh, List.countP_map, List.countP_filter]
  apply List.countP_congr
  intro n _
  simp [mkHeader, Bool.and_comm]

/-- C3 counterexample to the unrestricted claim: ids `1.0`, `NaN`, `1.0` on
three assemblies leave two headers with id `1.0` after sort-and-dedup. -/
theorem c3_counterexample :
    (formatItemSync nanForest idOnlyRules).map
        (fun out => out.boms.countP fun b => valueBeq b.id (.Number (some 1))) =
      .ok 2 := by rfl

/-- C3 witness: two assemblies sharing the proper id `"a"` keep exactly one
header after dedup. -/
theorem c3_witness :
    dupOut.boms.countP (fun b => valueBeq b.id (.Text "a")) =
      min 1 ((allNodesList dupForest.top_level_nodes).countP
        fun n => !n.children.isEmpty && valueBeq (idOf ⟨0, 0, none⟩ n) (.Text "a")) :=
  c3_header_dedup_unique dupForest idOnlyRules ⟨0, 0, none⟩ dupOut (.Text "a")
    rfl rfl (by decide) (by rfl)

end BomFold
